import Mathlib

/-!
Verification of the recurring-event/task store of the local calendar and
local to-do integrations.

The thin integration layer (`local_calendar/calendar.py`, `local_todo/todo.py`)
is translated directly.  The recurrence-store engine it drives (occurrence
expansion, scoped deletion, recurrence rules) lives in an external iCalendar
library and is not part of this repository's sources; those parts are
modelled from the specification (sections 4.2-4.4), as indicated by the
doc comments starting with `Modelled from the spec:`.

Machine times are embedded as plain natural numbers — seconds since the
civil epoch `0000-03-01` — and calendar dates use the proleptic Gregorian
calendar.
-/

/-! ## Temporal values -/

/-- Days since `0000-03-01` of a proleptic Gregorian civil date
(standard era-based conversion; valid for `1 ≤ m ≤ 12`). -/
def daysFromCivil (y m d : Nat) : Nat :=
  let y' := if m ≤ 2 then y - 1 else y
  let era := y' / 400
  let yoe := y' % 400
  let mp := (m + 9) % 12
  let doy := (153 * mp + 2) / 5 + d - 1
  let doe := yoe * 365 + yoe / 4 - yoe / 100 + doy
  era * 146097 + doe

/-- Civil date `(y, m, d)` of a day count (inverse of `daysFromCivil`). -/
def civilFromDays (z : Nat) : Nat × Nat × Nat :=
  let era := z / 146097
  let doe := z % 146097
  let yoe := (doe - doe / 1460 + doe / 36524 - doe / 146096) / 365
  let y := yoe + era * 400
  let doy := doe - (365 * yoe + yoe / 4 - yoe / 100)
  let mp := (5 * doy + 2) / 153
  let d := doy - (153 * mp + 2) / 5 + 1
  let m := if mp < 10 then mp + 3 else mp - 9
  (if m ≤ 2 then y + 1 else y, m, d)

/-- Timestamp from civil date and time-of-day components. -/
def mkDateTime (y m d hh mi ss : Nat) : Nat :=
  daysFromCivil y m d * 86400 + hh * 3600 + mi * 60 + ss

/-- Zero-pad a number to two digits. -/
def pad2 (n : Nat) : String :=
  if n < 10 then "0" ++ toString n else toString n

/-- Zero-pad a number to four digits. -/
def pad4 (n : Nat) : String :=
  if n < 10 then "000" ++ toString n
  else if n < 100 then "00" ++ toString n
  else if n < 1000 then "0" ++ toString n
  else toString n

/-- Canonical `YYYYMMDDTHHMMSS` textual form of a timestamp, the durable
`recurrence_id` contract between edit/delete requests and the store. -/
def canonicalString (t : Nat) : String :=
  let c := civilFromDays (t / 86400)
  pad4 c.1 ++ pad2 c.2.1 ++ pad2 c.2.2 ++ "T" ++
    pad2 (t % 86400 / 3600) ++ pad2 (t % 3600 / 60) ++ pad2 (t % 60)

/-- Gregorian leap-year test. -/
def isLeap (y : Nat) : Bool :=
  (y % 4 == 0 && y % 100 != 0) || y % 400 == 0

/-- Number of days in month `m` of year `y`. -/
def monthLen (y m : Nat) : Nat :=
  if m = 2 then (if isLeap y then 29 else 28)
  else if m = 4 ∨ m = 6 ∨ m = 9 ∨ m = 11 then 30
  else 31

/-- The month after `(y, m)`. -/
def nextMonth (y m : Nat) : Nat × Nat :=
  if m = 12 then (y + 1, 1) else (y, m + 1)

/-- `(y, m)` advanced by `n` months. -/
def monthsAdd (y m : Nat) : Nat → Nat × Nat
  | 0 => (y, m)
  | n + 1 => monthsAdd (nextMonth y m).1 (nextMonth y m).2 n

/-- Number of days from the first of `(y, m)` to the first of the month
`n` months later. -/
def monthsToDays (y m : Nat) : Nat → Nat
  | 0 => 0
  | n + 1 => monthLen y m + monthsToDays (nextMonth y m).1 (nextMonth y m).2 n

/-! ## Local to-do item conversion and migration (from `local_todo/todo.py`) -/

/-- ical `TodoStatus` values (rfc5545 VTODO STATUS). -/
inductive TodoStatus
  | needsAction
  | inProcess
  | completed
  | cancelled
deriving DecidableEq

/-- Host `TodoItemStatus` values (the public two-valued status set). -/
inductive TodoItemStatus
  | needsAction
  | completed
deriving DecidableEq

/-- `ICS_TODO_STATUS_MAP` from `local_todo/todo.py`: maps a stored ical
status onto the public status set. -/
def ICS_TODO_STATUS_MAP : TodoStatus → TodoItemStatus
  | TodoStatus.inProcess => TodoItemStatus.needsAction
  | TodoStatus.needsAction => TodoItemStatus.needsAction
  | TodoStatus.completed => TodoItemStatus.completed
  | TodoStatus.cancelled => TodoItemStatus.completed

/-- `ICS_TODO_STATUS_MAP_INV` from `local_todo/todo.py`. -/
def ICS_TODO_STATUS_MAP_INV : TodoItemStatus → TodoStatus
  | TodoItemStatus.completed => TodoStatus.completed
  | TodoItemStatus.needsAction => TodoStatus.needsAction

/-- The read path of `LocalTodoListEntity.async_update`:
`ICS_TODO_STATUS_MAP.get(item.status or TodoStatus.NEEDS_ACTION, NEEDS_ACTION)`. -/
def readStatus (s : Option TodoStatus) : TodoItemStatus :=
  ICS_TODO_STATUS_MAP (s.getD TodoStatus.needsAction)

/-- A due value: a date-only day count or a timestamp, mirroring the
`datetime.date` / `datetime.datetime` distinction in `todo.py`. -/
inductive TodoDue
  | date (day : Nat)
  | dateTime (t : Nat)
deriving DecidableEq

/-- A stored ical `Todo` in the fields `todo.py` manipulates. -/
structure IcsTodo where
  uid : String
  summary : Option String
  status : Option TodoStatus
  due : Option TodoDue
  description : Option String
deriving DecidableEq

/-- A host `TodoItem` in the fields `todo.py` manipulates. -/
structure HaTodoItem where
  uid : Option String
  summary : Option String
  status : Option TodoItemStatus
  due : Option TodoDue
  description : Option String
deriving DecidableEq

/-- Python truthiness for optional strings: `None` and `""` are falsy. -/
def strOrNone (s : Option String) : Option String :=
  match s with
  | some s => if s = "" then none else some s
  | none => none

/-- Placeholder for the uid the ical library auto-generates when the
caller supplies none. -/
def generatedUid : String := "generated-uid"

/-- `PRODID` marker of the current on-disk format. -/
def PRODID : String := "-//homeassistant.io//local_todo 2.0//EN"

/-- `PRODID_REQUIRES_MIGRATION`: marker of the legacy on-disk format with
inclusive all-day due dates. -/
def PRODID_REQUIRES_MIGRATION : String := "-//homeassistant.io//local_todo 1.0//EN"

/-- The write-path due shift of `_convert_item`: a date-only due moves
forward one day (rfc5545 exclusive storage); timestamps pass through. -/
def convertDue : Option TodoDue → Option TodoDue
  | some (TodoDue.date d) => some (TodoDue.date (d + 1))
  | x => x

/-- The read-path due shift of `async_update`: a date-only due moves back
one day; timestamps pass through. -/
def readDue : Option TodoDue → Option TodoDue
  | some (TodoDue.date d) => some (TodoDue.date (d - 1))
  | x => x

/-- `_convert_item` from `local_todo/todo.py`: convert a host `TodoItem`
to a stored ical `Todo`. -/
def convertItem (item : HaTodoItem) : IcsTodo :=
  { uid := (strOrNone item.uid).getD generatedUid
    summary := strOrNone item.summary
    status := item.status.map ICS_TODO_STATUS_MAP_INV
    due := convertDue item.due
    description := item.description }

/-- The calendar document as `_migrate_calendar` sees it. -/
structure TodoCalendar where
  prodid : Option String
  todos : List IcsTodo
deriving DecidableEq

/-- The due transformation `_migrate_calendar` applies to one stored todo:
skip missing and timestamp dues, shift date-only dues forward one day. -/
def migrateDue : Option TodoDue → Option TodoDue
  | some (TodoDue.date d) => some (TodoDue.date (d + 1))
  | x => x

/-- `_migrate_calendar` from `local_todo/todo.py`: when the document's
marker is the legacy marker, shift every date-only due forward one day;
return whether anything was shifted. -/
def migrateCalendar (c : TodoCalendar) : Bool × TodoCalendar :=
  if c.prodid ≠ some PRODID_REQUIRES_MIGRATION then (false, c)
  else
    (c.todos.any fun t =>
        match t.due with
        | some (TodoDue.date _) => true
        | _ => false,
      { c with todos := c.todos.map fun t => { t with due := migrateDue t.due } })

/-- The load-time migration step of `async_setup_entry`: run
`_migrate_calendar`, then rewrite the marker to the current `PRODID`. -/
def setupLoad (c : TodoCalendar) : Bool × TodoCalendar :=
  let r := migrateCalendar c
  (r.1, { r.2 with prodid := some PRODID })

/-! ## Move operation (from `LocalTodoListEntity.async_move_todo_item`) -/

/-- Error raised by the move operation (`HomeAssistantError` "not found"). -/
inductive MoveError
  | notFound
deriving DecidableEq

instance : Inhabited IcsTodo := ⟨⟨"", none, none, none, none⟩⟩

/-- Index of the last todo with the given uid, mirroring the dict
comprehension `{itm.uid: idx for idx, itm in enumerate(todos)}` in which a
later index overwrites an earlier one. -/
def lastIdxOf : List IcsTodo → String → Option Nat
  | [], _ => none
  | itm :: rest, u =>
    match lastIdxOf rest u with
    | some i => some (i + 1)
    | none => if itm.uid = u then some 0 else none

/-- `async_move_todo_item` from `local_todo/todo.py`: no-op when
`uid == previous_uid`; otherwise look up both uids (a falsy — absent or
empty — `previous_uid` means "move to the front" and is not looked up),
raise when a lookup fails, then pop the item and reinsert it directly
after `previous_uid`. -/
def moveTodoItem (todos : List IcsTodo) (uid : String) (previousUid : Option String) :
    Except MoveError (List IcsTodo) :=
  if some uid = previousUid then .ok todos
  else
    match lastIdxOf todos uid with
    | none => .error MoveError.notFound
    | some srcIdx =>
      let prevEff : Option String :=
        match previousUid with
        | some p => if p = "" then none else some p
        | none => none
      let srcItem := todos.getD srcIdx default
      let rest := todos.eraseIdx srcIdx
      match prevEff with
      | none => .ok (rest.insertIdx 0 srcItem)
      | some p =>
        match lastIdxOf todos p with
        | none => .error MoveError.notFound
        | some pIdx =>
          let dstIdx := if pIdx + 1 > srcIdx then pIdx else pIdx + 1
          .ok (rest.insertIdx dstIdx srcItem)

/-! ## First theorems: status collapse (C9) and due round-trip (C8) -/

/-- C9: every status surfaced by the read path is needs-action or
completed; a stored in-process status reads as needs-action, a stored
cancelled status reads as completed, and a missing status defaults to
needs-action. -/
theorem read_status_two_valued (s : Option TodoStatus) :
    (readStatus s = TodoItemStatus.needsAction ∨ readStatus s = TodoItemStatus.completed) ∧
    readStatus (some TodoStatus.inProcess) = TodoItemStatus.needsAction ∧
    readStatus (some TodoStatus.cancelled) = TodoItemStatus.completed ∧
    readStatus none = TodoItemStatus.needsAction := by
  refine ⟨?_, rfl, rfl, rfl⟩
  cases s with
  | none => exact Or.inl rfl
  | some v => cases v <;> simp [readStatus, ICS_TODO_STATUS_MAP, Option.getD]

/-- C8: the write path (`_convert_item`) shifts a date-only due forward a
day and the read path (`async_update`) shifts it back, and the two shifts
are exact inverses, so a created task lists with the due the caller
supplied; timestamp dues pass through both paths unchanged. -/
theorem due_shift_round_trip (item : HaTodoItem) :
    readDue (convertItem item).due = item.due ∧
    (∀ ts : Nat,
      (convertItem { item with due := some (TodoDue.dateTime ts) }).due =
        some (TodoDue.dateTime ts) ∧
      readDue (some (TodoDue.dateTime ts)) = some (TodoDue.dateTime ts)) := by
  constructor
  · show readDue (convertDue item.due) = item.due
    match item.due with
    | none => rfl
    | some (TodoDue.date d) => simp [convertDue, readDue]
    | some (TodoDue.dateTime t) => rfl
  · intro ts
    exact ⟨rfl, rfl⟩

/-- C3: loading a legacy-marked document shifts every date-only due
forward one day (timestamps untouched) and rewrites the marker to the
current format; a non-legacy document loads with no due change, and the
whole load step is idempotent. -/
theorem migration_shifts_once (c : TodoCalendar) :
    (setupLoad c).2.prodid = some PRODID ∧
    (c.prodid = some PRODID_REQUIRES_MIGRATION →
      (setupLoad c).2.todos.map IcsTodo.due = c.todos.map fun t => migrateDue t.due) ∧
    (c.prodid ≠ some PRODID_REQUIRES_MIGRATION → (setupLoad c).2.todos = c.todos) ∧
    (setupLoad (setupLoad c).2).2 = (setupLoad c).2 ∧
    (∀ ts : Nat, migrateDue (some (TodoDue.dateTime ts)) = some (TodoDue.dateTime ts)) ∧
    (∀ d : Nat, migrateDue (some (TodoDue.date d)) = some (TodoDue.date (d + 1))) := by
  have hne : (some PRODID : Option String) ≠ some PRODID_REQUIRES_MIGRATION := by decide
  refine ⟨rfl, ?_, ?_, ?_, fun ts => rfl, fun d => rfl⟩
  · intro h
    simp only [setupLoad, migrateCalendar, h]
    simp [List.map_map, Function.comp]
  · intro h
    simp [setupLoad, migrateCalendar, h]
  · have h2 : (setupLoad c).2.prodid = some PRODID := rfl
    simp [setupLoad, migrateCalendar, h2, hne]

/-! ## Recurrence rules and the item store

Modelled from the spec: the recurrence engine (`ical` library: `Recur`,
`Timeline`, `EventStore`/`TodoStore`) is not part of this repository's
sources, so rule expansion (spec 4.2), the item store with scoped deletion
(spec 4.3) and the occurrence expander (spec 4.4) are embedded from the
specification's words. -/

/-- Recurrence frequency (spec 4.2). -/
inductive Freq
  | daily
  | weekly
  | monthly
  | yearly
deriving DecidableEq

/-- Modelled from the spec: a parsed recurrence rule (spec 4.2) with
frequency, interval, optional count and optional inclusive bound
(`untilBound` embeds the rule's `until` field). -/
structure Recur where
  freq : Freq
  interval : Nat
  count : Option Nat
  untilBound : Option Nat
deriving DecidableEq

/-- Modelled from the spec: the `k`-th raw candidate start of a rule
anchored at `anchor`, stepping by `interval` units of `freq`; monthly and
yearly steps that land on a nonexistent day are skipped (`none`). -/
def candAt (r : Recur) (anchor : Nat) (k : Nat) : Option Nat :=
  match r.freq with
  | Freq.daily => some (anchor + k * r.interval * 86400)
  | Freq.weekly => some (anchor + k * r.interval * (7 * 86400))
  | Freq.monthly =>
    let c := civilFromDays (anchor / 86400)
    let n := k * r.interval
    let ym := monthsAdd c.1 c.2.1 n
    if c.2.2 ≤ monthLen ym.1 ym.2 then some (anchor + monthsToDays c.1 c.2.1 n * 86400)
    else none
  | Freq.yearly =>
    let c := civilFromDays (anchor / 86400)
    let n := k * r.interval * 12
    let ym := monthsAdd c.1 c.2.1 n
    if c.2.2 ≤ monthLen ym.1 ym.2 then some (anchor + monthsToDays c.1 c.2.1 n * 86400)
    else none

/-- Modelled from the spec: the first `fuel` raw candidates of a rule in
ascending order (`fuel` bounds the otherwise lazy infinite stream). -/
def candTimes (r : Recur) (anchor : Nat) (fuel : Nat) : List Nat :=
  (List.range fuel).filterMap (candAt r anchor)

/-- Does a candidate respect the rule's inclusive `until` bound? -/
def untilOk (r : Recur) (t : Nat) : Bool :=
  match r.untilBound with
  | none => true
  | some u => t ≤ u

/-- Modelled from the spec: candidates surviving the `until` and `count`
bounds, count being counted from the anchor (spec 4.2). -/
def boundedTimes (r : Recur) (anchor : Nat) (fuel : Nat) : List Nat :=
  let l := (candTimes r anchor fuel).filter (untilOk r)
  match r.count with
  | none => l
  | some c => l.take c

/-- Half-open window membership; a `none` upper end means `+infinity`. -/
def inWindow (ws : Nat) (we : Option Nat) (t : Nat) : Bool :=
  ws ≤ t && (match we with | none => true | some e => t < e)

/-- Modelled from the spec: `occurrences_in` of spec 4.2 — occurrence
start times of a rule inside the query window. -/
def ruleOccurrenceTimes (r : Recur) (anchor ws : Nat) (we : Option Nat) (fuel : Nat) :
    List Nat :=
  (boundedTimes r anchor fuel).filter (inWindow ws we)

/-- Modelled from the spec: a base item of the store (spec 3):
a calendar entry or task with exclusive end `start + duration`. -/
structure Item where
  uid : String
  summary : String
  start : Nat
  duration : Nat
  rrule : Option Recur
deriving DecidableEq

/-- Modelled from the spec: the kind of a recurrence exception — an
override carrying a replacement body, or a cancellation. -/
inductive ExceptionKind
  | cancelled
  | modified (replacement : Item)
deriving DecidableEq

/-- Modelled from the spec: an exception anchored to one
`(uid, recurrence_id)` pair. -/
structure RecurrenceException where
  uid : String
  recurrenceId : Nat
  kind : ExceptionKind
deriving DecidableEq

/-- Modelled from the spec: the store owning items and the exception
side-table for one calendar/list. -/
structure Store where
  items : List Item
  exceptions : List RecurrenceException
deriving DecidableEq

/-- Modelled from the spec: a transient expanded occurrence — uid,
optional recurrence id (the unscoped rule-derived start), and the
effective body. -/
structure Occurrence where
  uid : String
  recurrenceId : Option Nat
  start : Nat
  duration : Nat
  summary : String
deriving DecidableEq

/-- First exception registered for `(uid, rid)`, if any. -/
def findException (exs : List RecurrenceException) (uid : String) (rid : Nat) :
    Option ExceptionKind :=
  (exs.find? fun e => e.uid == uid && e.recurrenceId == rid).map RecurrenceException.kind

/-- Modelled from the spec: the occurrence a recurring item emits at
candidate start `t` — skipped when cancelled, the replacement body when
modified, else the rule-derived body with end shifted like start. -/
def occurrenceAt (exs : List RecurrenceException) (it : Item) (t : Nat) : Option Occurrence :=
  match findException exs it.uid t with
  | some ExceptionKind.cancelled => none
  | some (ExceptionKind.modified repl) =>
    some ⟨it.uid, some t, repl.start, repl.duration, repl.summary⟩
  | none => some ⟨it.uid, some t, t, it.duration, it.summary⟩

/-- Modelled from the spec: occurrences one base item contributes to a
window — a non-recurring item by half-open interval overlap, a recurring
item by rule expansion filtered through the exception table (spec 4.4). -/
def itemOccurrences (exs : List RecurrenceException) (it : Item) (ws : Nat)
    (we : Option Nat) (fuel : Nat) : List Occurrence :=
  match it.rrule with
  | none =>
    if ws < it.start + it.duration && (match we with | none => true | some e => it.start < e)
    then [⟨it.uid, none, it.start, it.duration, it.summary⟩]
    else []
  | some r => (ruleOccurrenceTimes r it.start ws we fuel).filterMap (occurrenceAt exs it)

/-- Modelled from the spec: `list_occurrences(window_start, window_end)`
over the whole store (spec 4.4); `fuel` bounds candidate generation of
each rule. -/
def listOccurrences (s : Store) (ws : Nat) (we : Option Nat) (fuel : Nat) :
    List Occurrence :=
  s.items.flatMap fun it => itemOccurrences s.exceptions it ws we fuel

/-- The recurrence range scope of a delete/edit request (ical `Range`). -/
inductive RangeScope
  | none
  | thisAndFuture
deriving DecidableEq

/-- Errors surfaced by store mutations (spec 7). -/
inductive StoreError
  | notFound
deriving DecidableEq

/-- Modelled from the spec: truncating a rule for a this-and-future
mutation — the new inclusive bound is the instant immediately preceding
the target occurrence (spec 4.3). -/
def truncateRecur (r : Recur) (rid : Nat) : Recur :=
  { r with untilBound := some (rid - 1) }

/-- Modelled from the spec: `delete(uid, recurrence_id, range)` of
spec 4.3 — `NotFound` when the uid is absent; without a recurrence id the
base item and its exceptions are removed; `this_only` records a cancelled
exception; `this_and_future` truncates the base rule just before the
target and drops exceptions at or after it. -/
def storeDelete (s : Store) (uid : String) (rid : Option Nat) (scope : RangeScope) :
    Except StoreError Store :=
  if ¬ s.items.any (fun it => it.uid == uid) then .error StoreError.notFound
  else
    match rid with
    | none =>
      .ok ⟨s.items.filter (fun it => !(it.uid == uid)),
           s.exceptions.filter (fun e => !(e.uid == uid))⟩
    | some t =>
      match scope with
      | RangeScope.none => .ok ⟨s.items, ⟨uid, t, ExceptionKind.cancelled⟩ :: s.exceptions⟩
      | RangeScope.thisAndFuture =>
        .ok ⟨s.items.map fun it =>
               if it.uid == uid then { it with rrule := it.rrule.map (truncateRecur · t) }
               else it,
             s.exceptions.filter fun e => !(e.uid == uid && decide (t ≤ e.recurrenceId))⟩

/-- The exact `Range.THIS_AND_FUTURE` wire string. -/
def THISANDFUTURE : String := "THISANDFUTURE"

/-- The recurrence-range parsing shared by `async_delete_event`,
`async_update_todo_item` and `async_delete_todo_items`: only the exact
string `THISANDFUTURE` selects the this-and-future scope; anything else
falls through to `Range.NONE`. -/
def parseRecurrenceRange (recurrenceRange : Option String) : RangeScope :=
  if recurrenceRange = some THISANDFUTURE then RangeScope.thisAndFuture
  else RangeScope.none

/-- `async_delete_event` / `async_delete_todo_items` entry: parse the
range string, then delete through the store. -/
def deleteEventRequest (s : Store) (uid : String) (rid : Option Nat)
    (recurrenceRange : Option String) : Except StoreError Store :=
  storeDelete s uid rid (parseRecurrenceRange recurrenceRange)

/-- C10: any recurrence-range value other than the exact string
`THISANDFUTURE` — misspellings and arbitrary strings included — is
silently treated as the this-only scope instead of being rejected. -/
theorem range_fallback_this_only (s : Store) (uid : String) (rid : Option Nat)
    (rr : Option String) (h : rr ≠ some THISANDFUTURE) :
    parseRecurrenceRange rr = RangeScope.none ∧
    deleteEventRequest s uid rid rr = storeDelete s uid rid RangeScope.none := by
  have hp : parseRecurrenceRange rr = RangeScope.none := by
    simp [parseRecurrenceRange, h]
  exact ⟨hp, by simp [deleteEventRequest, hp]⟩

/-- Witness for C10 at a misspelt range string. -/
theorem range_fallback_this_only_witness :
    (some "THISANDFUTUR" : Option String) ≠ some THISANDFUTURE ∧
    (parseRecurrenceRange (some "THISANDFUTUR") = RangeScope.none ∧
      deleteEventRequest ⟨[], []⟩ "u" none (some "THISANDFUTUR") =
        storeDelete ⟨[], []⟩ "u" none RangeScope.none) :=
  ⟨by decide, range_fallback_this_only ⟨[], []⟩ "u" none (some "THISANDFUTUR") (by decide)⟩

/-! ## The concrete recurring-delete scenario -/

/-- The base item of the recurring-delete scenario: daily at
`2022-08-22T08:30:00`, half an hour long. -/
def morningRoutine : Item :=
  ⟨"M", "Morning Routine", mkDateTime 2022 8 22 8 30 0, 1800,
    some ⟨Freq.daily, 1, none, none⟩⟩

/-- The scenario store holding only `morningRoutine`. -/
def scenarioStore : Store := ⟨[morningRoutine], []⟩

/-- Scenario window start, `2022-08-22T00:00:00`. -/
def scenarioWs : Nat := mkDateTime 2022 8 22 0 0 0

/-- Scenario window end, `2022-08-26T00:00:00`. -/
def scenarioWe : Option Nat := some (mkDateTime 2022 8 26 0 0 0)

/-- Recurrence ids of the occurrences a store yields over the scenario
window, rendered canonically. -/
def scenarioRids (s : Store) : List (Option String) :=
  (listOccurrences s scenarioWs scenarioWe 10).map fun o => o.recurrenceId.map canonicalString

/-- C2: the daily item starting `2022-08-22T08:30:00` expands over
`[2022-08-22, 2022-08-26)` to the four recurrence ids `20220822T083000`
… `20220825T083000`; a `this_only` delete at `20220824T083000` leaves
the occurrences of Aug 22, 23 and 25; a further `this_and_future` delete
at `20220823T083000` leaves only `20220822T083000`. -/
theorem scenario_recurring_delete :
    canonicalString (mkDateTime 2022 8 24 8 30 0) = "20220824T083000" ∧
    canonicalString (mkDateTime 2022 8 23 8 30 0) = "20220823T083000" ∧
    scenarioRids scenarioStore =
      [some "20220822T083000", some "20220823T083000", some "20220824T083000",
        some "20220825T083000"] ∧
    (storeDelete scenarioStore "M" (some (mkDateTime 2022 8 24 8 30 0))
        RangeScope.none).map scenarioRids =
      Except.ok [some "20220822T083000", some "20220823T083000", some "20220825T083000"] ∧
    ((storeDelete scenarioStore "M" (some (mkDateTime 2022 8 24 8 30 0))
          RangeScope.none).bind fun s1 =>
        storeDelete s1 "M" (some (mkDateTime 2022 8 23 8 30 0))
          RangeScope.thisAndFuture).map scenarioRids =
      Except.ok [some "20220822T083000"] := by
  refine ⟨by decide, by decide, by decide, rfl, rfl⟩

/-! ## List helper lemmas for the expansion proofs -/

/-- `flatMap` respects pointwise equality on members. -/
theorem listFlatMapCongr {α β : Type} {l : List α} {f g : α → List β}
    (h : ∀ a ∈ l, f a = g a) : l.flatMap f = l.flatMap g := by
  induction l with
  | nil => rfl
  | cons a l ih =>
    simp only [List.flatMap_cons]
    rw [h a (by simp), ih fun a ha => h a (by simp [ha])]

/-- Pushing an `Option.filter` through `filterMap`. -/
theorem filterMapOptionFilter {α β : Type} (l : List α) (g g' : α → Option β) (p : β → Bool)
    (h : ∀ a ∈ l, g' a = (g a).filter p) :
    l.filterMap g' = (l.filterMap g).filter p := by
  induction l with
  | nil => rfl
  | cons a l ih =>
    have ih' := ih fun a ha => h a (by simp [ha])
    rw [List.filterMap_cons, List.filterMap_cons, h a (by simp)]
    cases hg : g a with
    | none => simpa using ih'
    | some b =>
      cases hp : p b with
      | true => simp [Option.filter, hp, List.filter_cons, ih']
      | false => simp [Option.filter, hp, List.filter_cons, ih']

/-- Exchanging a source-side filter for a result-side filter under
`filterMap`, when the produced value determines the source predicate. -/
theorem filterMapFilterExchange {α β : Type} (l : List α) (g : α → Option β)
    (q : α → Bool) (p : β → Bool)
    (h : ∀ a ∈ l, ∀ b, g a = some b → p b = q a) :
    (l.filter q).filterMap g = (l.filterMap g).filter p := by
  induction l with
  | nil => rfl
  | cons a l ih =>
    have ih' := ih fun a ha => h a (by simp [ha])
    cases hg : g a with
    | none =>
      cases hq : q a with
      | true => simp [List.filter_cons, hq, List.filterMap_cons, hg, ih']
      | false => simp [List.filter_cons, hq, List.filterMap_cons, hg, ih']
    | some b =>
      have hpb : p b = q a := h a (by simp) b hg
      cases hq : q a with
      | true =>
        rw [hq] at hpb
        simp [List.filter_cons, hq, List.filterMap_cons, hg, hpb, ih']
      | false =>
        rw [hq] at hpb
        simp [List.filter_cons, hq, List.filterMap_cons, hg, hpb, ih']

/-- On a strictly ascending list, a downward-closed filter is a prefix. -/
theorem sortedFilterEqTakeWhile {l : List Nat} {p : Nat → Bool}
    (hl : l.Pairwise (fun a b => a < b))
    (hp : ∀ x y : Nat, x < y → p y = true → p x = true) :
    l.filter p = l.takeWhile p := by
  induction l with
  | nil => rfl
  | cons a l ih =>
    rcases List.pairwise_cons.mp hl with ⟨ha, hl'⟩
    cases hpa : p a with
    | true => simp [List.filter_cons, List.takeWhile_cons, hpa, ih hl']
    | false =>
      simp only [List.filter_cons, hpa, List.takeWhile_cons, Bool.false_eq_true, if_neg]
      apply List.filter_eq_nil_iff.mpr
      intro b hb hpb
      have : p a = true := hp a b (ha b hb) hpb
      simp [hpa] at this

/-- `find?` is unaffected by filtering away elements the search predicate
cannot match. -/
theorem findFilterOfImp {α : Type} (l : List α) (pr q : α → Bool)
    (h : ∀ e, pr e = true → q e = true) :
    (l.filter q).find? pr = l.find? pr := by
  induction l with
  | nil => rfl
  | cons a l ih =>
    rw [List.filter_cons]
    cases hq : q a with
    | true =>
      cases hpr : pr a with
      | true => simp [List.find?_cons_of_pos, hpr]
      | false => simp [List.find?_cons_of_neg, hpr, ih]
    | false =>
      have hpr : pr a = false := by
        cases hpa : pr a with
        | false => rfl
        | true => rw [h a hpa] at hq; cases hq
      simp [List.find?_cons_of_neg, hpr, ih]

/-! ## Sortedness of candidate streams -/

/-- Every month has at least 28 days. -/
theorem monthLen_pos (y m : Nat) : 0 < monthLen y m := by
  unfold monthLen
  split
  · split <;> omega
  · split <;> omega

/-- Advancing one more month strictly increases the day distance. -/
theorem monthsToDays_lt_succ (y m : Nat) : ∀ n, monthsToDays y m n < monthsToDays y m (n + 1) := by
  intro n
  induction n generalizing y m with
  | zero => simpa [monthsToDays] using monthLen_pos y m
  | succ n ih =>
    have h := ih (nextMonth y m).1 (nextMonth y m).2
    show monthLen y m + monthsToDays (nextMonth y m).1 (nextMonth y m).2 n <
      monthLen y m + monthsToDays (nextMonth y m).1 (nextMonth y m).2 (n + 1)
    omega

/-- `monthsToDays` is strictly monotone in the month count. -/
theorem monthsToDays_strictMono (y m : Nat) : StrictMono (monthsToDays y m) :=
  strictMono_nat_of_lt_succ (monthsToDays_lt_succ y m)

/-- Raw candidates of a rule with positive interval are strictly
increasing in the step index, wherever they are defined. -/
theorem candAt_mono (r : Recur) (a : Nat) (hi : 1 ≤ r.interval) {j k t t' : Nat}
    (hjk : j < k) (hj : candAt r a j = some t) (hk : candAt r a k = some t') : t < t' := by
  have hmul : j * r.interval < k * r.interval :=
    Nat.mul_lt_mul_of_lt_of_le hjk (le_refl _) (by omega)
  cases hf : r.freq with
  | daily =>
    simp only [candAt, hf] at hj hk
    have ht := hj.symm
    have ht' := hk.symm
    injection hj with hj
    injection hk with hk
    subst hj
    subst hk
    have : j * r.interval * 86400 < k * r.interval * 86400 :=
      Nat.mul_lt_mul_of_lt_of_le hmul (le_refl _) (by omega)
    omega
  | weekly =>
    simp only [candAt, hf] at hj hk
    injection hj with hj
    injection hk with hk
    subst hj
    subst hk
    have : j * r.interval * (7 * 86400) < k * r.interval * (7 * 86400) :=
      Nat.mul_lt_mul_of_lt_of_le hmul (le_refl _) (by omega)
    omega
  | monthly =>
    simp only [candAt, hf] at hj hk
    split at hj
    · injection hj with hj
      subst hj
      split at hk
      · injection hk with hk
        subst hk
        have h1 := monthsToDays_strictMono (civilFromDays (a / 86400)).1
          (civilFromDays (a / 86400)).2.1 hmul
        have h2 : monthsToDays (civilFromDays (a / 86400)).1 (civilFromDays (a / 86400)).2.1
              (j * r.interval) * 86400 <
            monthsToDays (civilFromDays (a / 86400)).1 (civilFromDays (a / 86400)).2.1
              (k * r.interval) * 86400 :=
          Nat.mul_lt_mul_of_lt_of_le h1 (le_refl _) (by omega)
        omega
      · cases hk
    · cases hj
  | yearly =>
    simp only [candAt, hf] at hj hk
    have hmul12 : j * r.interval * 12 < k * r.interval * 12 :=
      Nat.mul_lt_mul_of_lt_of_le hmul (le_refl _) (by omega)
    split at hj
    · injection hj with hj
      subst hj
      split at hk
      · injection hk with hk
        subst hk
        have h1 := monthsToDays_strictMono (civilFromDays (a / 86400)).1
          (civilFromDays (a / 86400)).2.1 hmul12
        have h2 : monthsToDays (civilFromDays (a / 86400)).1 (civilFromDays (a / 86400)).2.1
              (j * r.interval * 12) * 86400 <
            monthsToDays (civilFromDays (a / 86400)).1 (civilFromDays (a / 86400)).2.1
              (k * r.interval * 12) * 86400 :=
          Nat.mul_lt_mul_of_lt_of_le h1 (le_refl _) (by omega)
        omega
      · cases hk
    · cases hj

/-- The candidate stream of a rule with positive interval is strictly
ascending. -/
theorem candTimes_sorted (r : Recur) (a : Nat) (fuel : Nat) (hi : 1 ≤ r.interval) :
    (candTimes r a fuel).Pairwise (fun x y => x < y) := by
  unfold candTimes
  rw [List.pairwise_filterMap]
  apply List.Pairwise.imp_of_mem ?_ (List.pairwise_lt_range fuel)
  intro j k _ _ hjk
  intro t ht t' ht'
  exact candAt_mono r a hi hjk ht ht'

/-- The bounded candidate stream is strictly ascending as well. -/
theorem boundedTimes_sorted (r : Recur) (a : Nat) (fuel : Nat) (hi : 1 ≤ r.interval) :
    (boundedTimes r a fuel).Pairwise (fun x y => x < y) := by
  unfold boundedTimes
  have h := (candTimes_sorted r a fuel hi).filter (untilOk r)
  cases r.count with
  | none => exact h
  | some c => exact List.Pairwise.sublist (List.take_sublist c _) h

/-- An occurrence emitted at candidate `t` carries the base item's uid and
`t` as its recurrence id. -/
theorem occurrenceAt_shape (exs : List RecurrenceException) (it : Item) (t : Nat)
    (o : Occurrence) (h : occurrenceAt exs it t = some o) :
    o.uid = it.uid ∧ o.recurrenceId = some t := by
  unfold occurrenceAt at h
  split at h
  · cases h
  · injection h with h
    subst h
    exact ⟨rfl, rfl⟩
  · injection h with h
    subst h
    exact ⟨rfl, rfl⟩

/-- Every occurrence an item contributes carries that item's uid. -/
theorem mem_itemOccurrences_uid {exs : List RecurrenceException} {it : Item} {ws : Nat}
    {we : Option Nat} {fuel : Nat} {o : Occurrence}
    (h : o ∈ itemOccurrences exs it ws we fuel) : o.uid = it.uid := by
  unfold itemOccurrences at h
  split at h
  · split at h
    · rcases List.mem_singleton.mp h with rfl
      rfl
    · cases h
  · rcases List.mem_filterMap.mp h with ⟨t, _, ht⟩
    exact (occurrenceAt_shape _ _ _ _ ht).1

/-- An occurrence a non-recurring item contributes has no recurrence id;
one a recurring item contributes has one. -/
theorem mem_itemOccurrences_rid {exs : List RecurrenceException} {it : Item} {ws : Nat}
    {we : Option Nat} {fuel : Nat} {o : Occurrence}
    (h : o ∈ itemOccurrences exs it ws we fuel) :
    (it.rrule = none → o.recurrenceId = none) ∧
    (∀ r, it.rrule = some r → ∃ t, o.recurrenceId = some t) := by
  unfold itemOccurrences at h
  split at h
  next hr =>
    split at h
    · rcases List.mem_singleton.mp h with rfl
      exact ⟨fun _ => rfl, fun r hrr => (by rw [hr] at hrr; cases hrr)⟩
    · cases h
  next r hr =>
    rcases List.mem_filterMap.mp h with ⟨t, _, ht⟩
    refine ⟨fun hn => (by rw [hr] at hn; cases hn), fun r' _ => ⟨t, (occurrenceAt_shape _ _ _ _ ht).2⟩⟩

/-! ## Scoped deletion lemmas -/

/-- Keep predicate of a `this_only` delete: everything except the one
occurrence of `u` at recurrence id `rid`. -/
def notThisOccurrence (u : String) (rid : Nat) (o : Occurrence) : Bool :=
  !(o.uid == u && o.recurrenceId == some rid)

/-- Keep predicate of a `this_and_future` delete: everything except the
occurrences of `u` at or after recurrence id `rid`. -/
def notFromOnward (u : String) (rid : Nat) (o : Occurrence) : Bool :=
  !(o.uid == u && (o.recurrenceId.any fun t => decide (rid ≤ t)))

/-- Unfolding `findException` over a cons cell. -/
theorem findException_cons (e : RecurrenceException) (exs : List RecurrenceException)
    (uid : String) (t : Nat) :
    findException (e :: exs) uid t =
      if e.uid == uid && e.recurrenceId == t then some e.kind else findException exs uid t := by
  unfold findException
  cases h : (e.uid == uid && e.recurrenceId == t) with
  | true => simp [List.find?_cons_of_pos, h]
  | false => simp [List.find?_cons_of_neg, h]

/-- `Option.filter` keeps an emitted occurrence whose shape satisfies the
predicate. -/
theorem occurrenceAt_filter_self (exs : List RecurrenceException) (it : Item) (t : Nat)
    (p : Occurrence → Bool)
    (hp : ∀ o : Occurrence, o.uid = it.uid → o.recurrenceId = some t → p o = true) :
    Option.filter p (occurrenceAt exs it t) = occurrenceAt exs it t := by
  cases hfe : occurrenceAt exs it t with
  | none => rfl
  | some o =>
    obtain ⟨h1, h2⟩ := occurrenceAt_shape _ _ _ _ hfe
    simp [Option.filter, hp o h1 h2]

/-- `Option.filter` drops an emitted occurrence whose shape falsifies the
predicate. -/
theorem occurrenceAt_filter_none (exs : List RecurrenceException) (it : Item) (t : Nat)
    (p : Occurrence → Bool)
    (hp : ∀ o : Occurrence, o.uid = it.uid → o.recurrenceId = some t → p o = false) :
    Option.filter p (occurrenceAt exs it t) = none := by
  cases hfe : occurrenceAt exs it t with
  | none => rfl
  | some o =>
    obtain ⟨h1, h2⟩ := occurrenceAt_shape _ _ _ _ hfe
    simp [Option.filter, hp o h1 h2]

/-- Registering a cancelled exception for `(u, rid)` filters exactly the
occurrence of `u` with recurrence id `rid` out of one item's expansion. -/
theorem itemOccurrences_cancel (exs : List RecurrenceException) (it : Item) (ws : Nat)
    (we : Option Nat) (fuel : Nat) (u : String) (rid : Nat) :
    itemOccurrences (⟨u, rid, ExceptionKind.cancelled⟩ :: exs) it ws we fuel =
      (itemOccurrences exs it ws we fuel).filter (notThisOccurrence u rid) := by
  cases hr : it.rrule with
  | none =>
    simp only [itemOccurrences, hr]
    split
    · simp [notThisOccurrence, List.filter_cons]
    · rfl
  | some r =>
    simp only [itemOccurrences, hr]
    apply filterMapOptionFilter
    intro t _
    by_cases hc : u = it.uid ∧ rid = t
    · obtain ⟨h1, h2⟩ := hc
      have hcond : (u == it.uid && rid == t) = true := by simp [h1, h2]
      have hL : occurrenceAt (⟨u, rid, ExceptionKind.cancelled⟩ :: exs) it t = none := by
        unfold occurrenceAt
        rw [findException_cons]
        simp [hcond]
      rw [hL]
      symm
      apply occurrenceAt_filter_none
      intro o ho1 ho2
      simp [notThisOccurrence, ho1, ho2, h1, h2]
    · have hcond : (u == it.uid && rid == t) = false := by
        rw [Bool.and_eq_false_iff]
        rcases not_and_or.mp hc with h | h
        · exact Or.inl (by simpa using h)
        · exact Or.inr (by simpa using h)
      have hL : occurrenceAt (⟨u, rid, ExceptionKind.cancelled⟩ :: exs) it t =
          occurrenceAt exs it t := by
        unfold occurrenceAt
        rw [findException_cons]
        simp [hcond]
      rw [hL]
      symm
      apply occurrenceAt_filter_self
      intro o ho1 ho2
      simp only [notThisOccurrence, ho1, ho2]
      simp only [Bool.not_eq_true', Bool.and_eq_false_iff, beq_eq_false_iff_ne, ne_eq,
        Option.some.injEq]
      rcases not_and_or.mp hc with h | h
      · exact Or.inl fun he => h he.symm
      · exact Or.inr fun he => h he.symm

/-- Truncation does not change the raw candidate stream. -/
theorem candTimes_truncate (r : Recur) (rid a : Nat) (fuel : Nat) :
    candTimes (truncateRecur r rid) a fuel = candTimes r a fuel := rfl

/-- Truncating a rule just before a reachable `rid` keeps exactly the
bounded candidates strictly before `rid`. -/
theorem boundedTimes_truncate (r : Recur) (a rid : Nat) (fuel : Nat)
    (hi : 1 ≤ r.interval) (h0 : 0 < rid)
    (hu : ∀ u0 ∈ r.untilBound, rid ≤ u0) :
    boundedTimes (truncateRecur r rid) a fuel =
      (boundedTimes r a fuel).filter fun t => decide (t < rid) := by
  have hstep : (candTimes r a fuel).filter (untilOk (truncateRecur r rid)) =
      ((candTimes r a fuel).filter (untilOk r)).filter fun t => decide (t < rid) := by
    rw [List.filter_filter]
    apply List.filter_congr
    intro t _
    show untilOk (truncateRecur r rid) t = (decide (t < rid) && untilOk r t)
    cases hub : r.untilBound with
    | none =>
      simp only [untilOk, truncateRecur, hub, Bool.and_true]
      rcases Nat.lt_or_ge t rid with h | h
      · have e1 : t ≤ rid - 1 := by omega
        rw [decide_eq_true e1, decide_eq_true h]
      · have e1 : ¬ t ≤ rid - 1 := by omega
        have e2 : ¬ t < rid := by omega
        rw [decide_eq_false e1, decide_eq_false e2]
    | some u0 =>
      have hru : rid ≤ u0 := hu u0 (by simp [hub])
      simp only [untilOk, truncateRecur, hub]
      rcases Nat.lt_or_ge t rid with h | h
      · have e1 : t ≤ rid - 1 := by omega
        have e3 : t ≤ u0 := by omega
        rw [decide_eq_true e1, decide_eq_true h, decide_eq_true e3]
        rfl
      · have e1 : ¬ t ≤ rid - 1 := by omega
        have e2 : ¬ t < rid := by omega
        rw [decide_eq_false e1, decide_eq_false e2]
        rfl
  have hsor : ((candTimes r a fuel).filter (untilOk r)).Pairwise (fun x y => x < y) :=
    (candTimes_sorted r a fuel hi).filter (untilOk r)
  have hdc : ∀ x y : Nat, x < y → decide (y < rid) = true → decide (x < rid) = true := by
    intro x y hxy hy
    have := of_decide_eq_true hy
    exact decide_eq_true (by omega)
  unfold boundedTimes
  rw [candTimes_truncate]
  have hcnt : (truncateRecur r rid).count = r.count := rfl
  rw [hcnt]
  cases hc : r.count with
  | none => exact hstep
  | some c =>
    show ((candTimes r a fuel).filter (untilOk (truncateRecur r rid))).take c =
      (((candTimes r a fuel).filter (untilOk r)).take c).filter fun t => decide (t < rid)
    rw [hstep, sortedFilterEqTakeWhile hsor hdc, List.take_takeWhile,
      ← sortedFilterEqTakeWhile (List.Pairwise.sublist (List.take_sublist c _) hsor) hdc]

/-- Truncating a rule keeps exactly the in-window occurrence starts
strictly before `rid`. -/
theorem ruleOccurrenceTimes_truncate (r : Recur) (a rid ws : Nat) (we : Option Nat)
    (fuel : Nat) (hi : 1 ≤ r.interval) (h0 : 0 < rid)
    (hu : ∀ u0 ∈ r.untilBound, rid ≤ u0) :
    ruleOccurrenceTimes (truncateRecur r rid) a ws we fuel =
      (ruleOccurrenceTimes r a ws we fuel).filter fun t => decide (t < rid) := by
  unfold ruleOccurrenceTimes
  rw [boundedTimes_truncate r a rid fuel hi h0 hu, List.filter_filter, List.filter_filter]
  apply List.filter_congr
  intro t _
  rw [Bool.and_comm]

/-- Dropping the exceptions of `u` at or after `rid` does not change
exception lookup for earlier recurrence ids or for other uids. -/
theorem findException_dropFuture (exs : List RecurrenceException) (u uid' : String)
    (rid t : Nat) (h : t < rid ∨ uid' ≠ u) :
    findException (exs.filter fun e => !(e.uid == u && decide (rid ≤ e.recurrenceId)))
        uid' t =
      findException exs uid' t := by
  unfold findException
  rw [findFilterOfImp]
  intro e he
  have he' : e.uid = uid' ∧ e.recurrenceId = t := by simpa using he
  rcases h with h | h
  · simp [he'.2, Nat.not_le.mpr h]
  · simp [he'.1, h]

/-- Validity of an item's rule: the interval is positive (spec 4.2 rejects
`interval <= 0` with `InvalidRecurrenceRule`). -/
def itemWF (it : Item) : Bool :=
  match it.rrule with
  | some r => decide (1 ≤ r.interval)
  | none => true

/-- The target recurrence id does not exceed the item's `until` bound,
i.e. the targeted occurrence is reachable under the rule's bound. -/
def untilBoundOk (it : Item) (rid : Nat) : Bool :=
  match it.rrule with
  | some r =>
    match r.untilBound with
    | some u0 => decide (rid ≤ u0)
    | none => true
  | none => true

/-- Structure updates that leave every field `occurrenceAt` reads
untouched do not change it. -/
theorem occurrenceAt_rrule_irrel (exs : List RecurrenceException) (it : Item)
    (x : Option Recur) (t : Nat) :
    occurrenceAt exs { it with rrule := x } t = occurrenceAt exs it t := rfl

/-- For an item owned by `u`, truncating its rule at `rid` and dropping
the exceptions of `u` at or after `rid` filters exactly the occurrences
at or after `rid` out of its expansion. -/
theorem itemOccurrences_truncate_match (exs : List RecurrenceException) (it : Item)
    (ws : Nat) (we : Option Nat) (fuel : Nat) (u : String) (rid : Nat)
    (huid : it.uid = u) (hwf : itemWF it = true) (h0 : 0 < rid)
    (hub : untilBoundOk it rid = true) :
    itemOccurrences (exs.filter fun e => !(e.uid == u && decide (rid ≤ e.recurrenceId)))
        { it with rrule := it.rrule.map (truncateRecur · rid) } ws we fuel =
      (itemOccurrences exs it ws we fuel).filter (notFromOnward u rid) := by
  obtain ⟨iu, isum, ist, idur, irr⟩ := it
  have huid' : iu = u := huid
  cases irr with
  | none =>
    simp only [itemOccurrences, Option.map_none']
    split
    · simp [notFromOnward, List.filter_cons]
    · rfl
  | some r =>
    have hi : 1 ≤ r.interval := of_decide_eq_true hwf
    have hu : ∀ u0 ∈ r.untilBound, rid ≤ u0 := by
      intro u0 hu0
      rw [Option.mem_def] at hu0
      have hub' : (match r.untilBound with
        | some v => decide (rid ≤ v)
        | none => true) = true := hub
      rw [hu0] at hub'
      exact of_decide_eq_true hub'
    simp only [itemOccurrences, Option.map_some']
    rw [ruleOccurrenceTimes_truncate r ist rid ws we fuel hi h0 hu]
    have hcong : ∀ t ∈ (ruleOccurrenceTimes r ist ws we fuel).filter
        (fun t => decide (t < rid)),
        occurrenceAt (exs.filter fun e => !(e.uid == u && decide (rid ≤ e.recurrenceId)))
            (⟨iu, isum, ist, idur, some (truncateRecur r rid)⟩ : Item) t =
          occurrenceAt exs (⟨iu, isum, ist, idur, some r⟩ : Item) t := by
      intro t ht
      have htr : t < rid := of_decide_eq_true (List.mem_filter.mp ht).2
      show (match findException (exs.filter fun e =>
          !(e.uid == u && decide (rid ≤ e.recurrenceId))) iu t with
        | some ExceptionKind.cancelled => none
        | some (ExceptionKind.modified repl) =>
          some (⟨iu, some t, repl.start, repl.duration, repl.summary⟩ : Occurrence)
        | none => some (⟨iu, some t, t, idur, isum⟩ : Occurrence)) = _
      rw [findException_dropFuture exs u iu rid t (Or.inl htr)]
      rfl
    rw [List.filterMap_congr hcong]
    apply filterMapFilterExchange
    intro t _ o ho
    obtain ⟨h1, h2⟩ := occurrenceAt_shape _ _ _ _ ho
    have h1' : o.uid = u := by rw [h1]; exact huid'
    simp only [notFromOnward, h2, h1', Option.any_some, beq_self_eq_true, Bool.true_and]
    rcases Nat.lt_or_ge t rid with h | h
    · rw [decide_eq_true h, decide_eq_false (show ¬ rid ≤ t by omega)]
      rfl
    · rw [decide_eq_false (show ¬ t < rid by omega), decide_eq_true (show rid ≤ t by omega)]
      rfl

/-- Dropping the future exceptions of `u` leaves the expansion of any
item not owned by `u` unchanged. -/
theorem itemOccurrences_dropFuture_other (exs : List RecurrenceException) (it : Item)
    (ws : Nat) (we : Option Nat) (fuel : Nat) (u : String) (rid : Nat)
    (huid : it.uid ≠ u) :
    itemOccurrences (exs.filter fun e => !(e.uid == u && decide (rid ≤ e.recurrenceId)))
        it ws we fuel =
      itemOccurrences exs it ws we fuel := by
  obtain ⟨iu, isum, ist, idur, irr⟩ := it
  have huid' : iu ≠ u := huid
  cases irr with
  | none => simp only [itemOccurrences]
  | some r =>
    simp only [itemOccurrences]
    apply List.filterMap_congr
    intro t _
    show (match findException (exs.filter fun e =>
        !(e.uid == u && decide (rid ≤ e.recurrenceId))) iu t with
      | some ExceptionKind.cancelled => none
      | some (ExceptionKind.modified repl) =>
        some (⟨iu, some t, repl.start, repl.duration, repl.summary⟩ : Occurrence)
      | none => some (⟨iu, some t, t, idur, isum⟩ : Occurrence)) = _
    rw [findException_dropFuture exs u iu rid t (Or.inr huid')]
    rfl

/-- The this-and-future keep predicate retains every occurrence of an
item not owned by `u`. -/
theorem filter_notFromOnward_other {exs : List RecurrenceException} {it : Item}
    {ws : Nat} {we : Option Nat} {fuel : Nat} {u : String} {rid : Nat}
    (huid : it.uid ≠ u) :
    (itemOccurrences exs it ws we fuel).filter (notFromOnward u rid) =
      itemOccurrences exs it ws we fuel := by
  apply List.filter_eq_self.mpr
  intro o ho
  have := mem_itemOccurrences_uid ho
  simp [notFromOnward, this, huid]

/-- C1: for a recurring item, a `this_only` delete at a recurrence id
removes exactly that occurrence from every subsequent `list_occurrences`
result and leaves every other occurrence (including later ones) intact;
a `this_and_future` delete removes that occurrence and all later ones of
that uid, leaving all earlier occurrences intact. -/
theorem delete_scoped_semantics (s s₁ s₂ : Store) (u : String) (rid ws : Nat)
    (we : Option Nat) (fuel : Nat)
    (hwf : ∀ it ∈ s.items, itemWF it = true)
    (h0 : 0 < rid)
    (hub : ∀ it ∈ s.items, it.uid = u → untilBoundOk it rid = true)
    (h1 : storeDelete s u (some rid) RangeScope.none = Except.ok s₁)
    (h2 : storeDelete s u (some rid) RangeScope.thisAndFuture = Except.ok s₂) :
    listOccurrences s₁ ws we fuel =
      (listOccurrences s ws we fuel).filter (notThisOccurrence u rid) ∧
    listOccurrences s₂ ws we fuel =
      (listOccurrences s ws we fuel).filter (notFromOnward u rid) := by
  unfold storeDelete at h1 h2
  by_cases hany : s.items.any (fun it => it.uid == u) = true
  · rw [if_neg (not_not_intro hany)] at h1 h2
    have e1 : (⟨s.items, ⟨u, rid, ExceptionKind.cancelled⟩ :: s.exceptions⟩ : Store) = s₁ :=
      Except.ok.inj h1
    have e2 : (⟨s.items.map fun it =>
          if it.uid == u then { it with rrule := it.rrule.map (truncateRecur · rid) } else it,
        s.exceptions.filter fun e => !(e.uid == u && decide (rid ≤ e.recurrenceId))⟩ : Store)
        = s₂ := Except.ok.inj h2
    subst e1
    subst e2
    constructor
    · show (s.items.flatMap fun it =>
          itemOccurrences (⟨u, rid, ExceptionKind.cancelled⟩ :: s.exceptions) it ws we fuel)
        = _
      unfold listOccurrences
      rw [List.filter_flatMap]
      apply listFlatMapCongr
      intro it _
      exact itemOccurrences_cancel s.exceptions it ws we fuel u rid
    · show ((s.items.map fun it =>
          if it.uid == u then { it with rrule := it.rrule.map (truncateRecur · rid) } else it).flatMap
            fun it => itemOccurrences
              (s.exceptions.filter fun e => !(e.uid == u && decide (rid ≤ e.recurrenceId)))
              it ws we fuel)
        = _
      unfold listOccurrences
      rw [List.flatMap_map, List.filter_flatMap]
      apply listFlatMapCongr
      intro it hit
      by_cases hui : it.uid = u
      · rw [if_pos (by simp [hui])]
        exact itemOccurrences_truncate_match s.exceptions it ws we fuel u rid hui
          (hwf it hit) h0 (hub it hit hui)
      · rw [if_neg (by simp [hui])]
        rw [itemOccurrences_dropFuture_other s.exceptions it ws we fuel u rid hui]
        exact (filter_notFromOnward_other hui).symm
  · rw [if_pos hany] at h1
    cases h1

/-- The recurrence id targeted in the witness scenario, `2022-08-24T08:30:00`. -/
def scenarioRid : Nat := mkDateTime 2022 8 24 8 30 0

/-- The scenario store after a `this_only` delete at `scenarioRid`. -/
def scenarioThisOnlyStore : Store :=
  ⟨[morningRoutine], [⟨"M", scenarioRid, ExceptionKind.cancelled⟩]⟩

/-- The scenario store after a `this_and_future` delete at `scenarioRid`. -/
def scenarioThisAndFutureStore : Store :=
  ⟨[{ morningRoutine with rrule := some ⟨Freq.daily, 1, none, some (scenarioRid - 1)⟩ }], []⟩

/-- Witness for C1 on the concrete daily scenario. -/
theorem delete_scoped_semantics_witness :
    (∀ it ∈ scenarioStore.items, itemWF it = true) ∧
    0 < scenarioRid ∧
    (∀ it ∈ scenarioStore.items, it.uid = "M" → untilBoundOk it scenarioRid = true) ∧
    (listOccurrences scenarioThisOnlyStore scenarioWs scenarioWe 10 =
        (listOccurrences scenarioStore scenarioWs scenarioWe 10).filter
          (notThisOccurrence "M" scenarioRid) ∧
      listOccurrences scenarioThisAndFutureStore scenarioWs scenarioWe 10 =
        (listOccurrences scenarioStore scenarioWs scenarioWe 10).filter
          (notFromOnward "M" scenarioRid)) :=
  ⟨by decide, by decide, by decide,
    delete_scoped_semantics scenarioStore scenarioThisOnlyStore scenarioThisAndFutureStore
      "M" scenarioRid scenarioWs scenarioWe 10 (by decide) (by decide) (by decide) rfl rfl⟩

/-- A legacy-marked document holding one date-only due `2020-01-01`. -/
def legacyDoc : TodoCalendar :=
  ⟨some PRODID_REQUIRES_MIGRATION,
    [⟨"t1", some "task", none, some (TodoDue.date (daysFromCivil 2020 1 1)), none⟩]⟩

/-- An already-migrated document. -/
def migratedDoc : TodoCalendar :=
  ⟨some PRODID, [⟨"t1", some "task", none, some (TodoDue.date (daysFromCivil 2020 1 1)), none⟩]⟩

/-- Witness for C3: the legacy document's date-only due `2020-01-01`
loads as `2020-01-02` with the marker rewritten, and an already-migrated
document loads unchanged. -/
theorem migration_shifts_once_witness :
    legacyDoc.prodid = some PRODID_REQUIRES_MIGRATION ∧
    (setupLoad legacyDoc).2.todos.map IcsTodo.due =
      legacyDoc.todos.map (fun t => migrateDue t.due) ∧
    (setupLoad legacyDoc).2.todos.map IcsTodo.due =
      [some (TodoDue.date (daysFromCivil 2020 1 2))] ∧
    migratedDoc.prodid ≠ some PRODID_REQUIRES_MIGRATION ∧
    (setupLoad migratedDoc).2.todos = migratedDoc.todos :=
  ⟨rfl, (migration_shifts_once legacyDoc).2.1 rfl, by decide, by decide,
    (migration_shifts_once migratedDoc).2.2.1 (by decide)⟩

/-- C4: a non-recurring item appears in `list_occurrences(a, b)` exactly
when its half-open interval overlaps the half-open query window:
`item.start < b` and `item.end > a`. -/
theorem nonrecurring_overlap_iff (s : Store) (it : Item) (a b : Nat) (fuel : Nat)
    (hmem : it ∈ s.items) (hnr : it.rrule = none)
    (hnodup : (s.items.map Item.uid).Nodup) :
    (∃ o ∈ listOccurrences s a (some b) fuel, o.uid = it.uid ∧ o.recurrenceId = none) ↔
      it.start < b ∧ a < it.start + it.duration := by
  constructor
  · rintro ⟨o, ho, houid, _⟩
    rcases List.mem_flatMap.mp ho with ⟨it', hit', hoIt⟩
    have huid : it'.uid = it.uid := (mem_itemOccurrences_uid hoIt).symm.trans houid
    have : it' = it := List.inj_on_of_nodup_map hnodup hit' hmem huid
    subst this
    simp only [itemOccurrences, hnr] at hoIt
    split at hoIt
    next hcond =>
      simp only [Bool.and_eq_true, decide_eq_true_eq] at hcond
      exact ⟨hcond.2, hcond.1⟩
    next => cases hoIt
  · rintro ⟨hsb, hae⟩
    refine ⟨⟨it.uid, none, it.start, it.duration, it.summary⟩, ?_, rfl, rfl⟩
    apply List.mem_flatMap.mpr
    refine ⟨it, hmem, ?_⟩
    simp only [itemOccurrences, hnr]
    rw [if_pos]
    · exact List.mem_singleton.mpr rfl
    · simp only [Bool.and_eq_true, decide_eq_true_eq]
      exact ⟨hae, hsb⟩

/-- A concrete non-recurring item used to witness the overlap criterion. -/
def soloItem : Item := ⟨"N", "solo", 100, 50, none⟩

/-- A store holding only `soloItem`. -/
def soloStore : Store := ⟨[soloItem], []⟩

/-- Witness for C4 on a concrete one-item store and window. -/
theorem nonrecurring_overlap_iff_witness :
    soloItem ∈ soloStore.items ∧
    soloItem.rrule = none ∧
    (soloStore.items.map Item.uid).Nodup ∧
    ((∃ o ∈ listOccurrences soloStore 0 (some 200) 5,
        o.uid = soloItem.uid ∧ o.recurrenceId = none) ↔
      soloItem.start < 200 ∧ 0 < soloItem.start + soloItem.duration) :=
  ⟨by decide, rfl, by decide,
    nonrecurring_overlap_iff soloStore soloItem 0 200 5 (by decide) rfl (by decide)⟩

/-! ## Next occurrence -/

/-- Order key for recurrence ids: absent sorts first. -/
def ridKey : Option Nat → Nat
  | none => 0
  | some t => t + 1

/-- Modelled from the spec: the deterministic result order of spec 4.4 —
ascending effective start, ties broken by uid then recurrence id. -/
def occLE (x y : Occurrence) : Prop :=
  x.start < y.start ∨
    (x.start = y.start ∧
      (x.uid < y.uid ∨ (x.uid = y.uid ∧ ridKey x.recurrenceId ≤ ridKey y.recurrenceId)))

instance (x y : Occurrence) : Decidable (occLE x y) := by
  unfold occLE
  infer_instance

/-- `occLE` is reflexive. -/
theorem occLE_refl (x : Occurrence) : occLE x x :=
  Or.inr ⟨rfl, Or.inr ⟨rfl, le_refl _⟩⟩

/-- `occLE` is total. -/
theorem occLE_total (x y : Occurrence) : occLE x y ∨ occLE y x := by
  rcases Nat.lt_trichotomy x.start y.start with h | h | h
  · exact Or.inl (Or.inl h)
  · rcases lt_trichotomy x.uid y.uid with hu | hu | hu
    · exact Or.inl (Or.inr ⟨h, Or.inl hu⟩)
    · rcases Nat.le_total (ridKey x.recurrenceId) (ridKey y.recurrenceId) with hr | hr
      · exact Or.inl (Or.inr ⟨h, Or.inr ⟨hu, hr⟩⟩)
      · exact Or.inr (Or.inr ⟨h.symm, Or.inr ⟨hu.symm, hr⟩⟩)
    · exact Or.inr (Or.inr ⟨h.symm, Or.inl hu⟩)
  · exact Or.inr (Or.inl h)

/-- `occLE` is transitive. -/
theorem occLE_trans {x y z : Occurrence} (hxy : occLE x y) (hyz : occLE y z) :
    occLE x z := by
  rcases hxy with h1 | ⟨h1, h1'⟩
  · rcases hyz with h2 | ⟨h2, _⟩
    · exact Or.inl (Nat.lt_trans h1 h2)
    · exact Or.inl (h2 ▸ h1)
  · rcases hyz with h2 | ⟨h2, h2'⟩
    · exact Or.inl (h1 ▸ h2)
    · refine Or.inr ⟨h1.trans h2, ?_⟩
      rcases h1' with hu1 | ⟨hu1, hr1⟩
      · rcases h2' with hu2 | ⟨hu2, _⟩
        · exact Or.inl (lt_trans hu1 hu2)
        · exact Or.inl (hu2 ▸ hu1)
      · rcases h2' with hu2 | ⟨hu2, hr2⟩
        · exact Or.inl (hu1 ▸ hu2)
        · exact Or.inr ⟨hu1.trans hu2, le_trans hr1 hr2⟩

/-- One folding step of the earliest-occurrence scan. -/
def minStep (acc : Option Occurrence) (o : Occurrence) : Option Occurrence :=
  match acc with
  | none => some o
  | some b => if occLE b o then some b else some o

/-- Modelled from the spec: `next_occurrence(now)` of spec 4.4 — the
earliest element of the unbounded expansion `list_occurrences(now, +∞)`,
found by a linear scan (the source reads the head of
`timeline.active_after(now)`). -/
def nextOccurrence (s : Store) (now : Nat) (fuel : Nat) : Option Occurrence :=
  (listOccurrences s now none fuel).foldl minStep none

/-- The earliest-occurrence scan started at `m` returns an element of
`m :: l` below every element of `m :: l`. -/
theorem foldl_minStep_spec (l : List Occurrence) (m : Occurrence) :
    ∃ m', l.foldl minStep (some m) = some m' ∧ m' ∈ m :: l ∧ ∀ x ∈ m :: l, occLE m' x := by
  induction l generalizing m with
  | nil =>
    refine ⟨m, rfl, List.mem_singleton.mpr rfl, ?_⟩
    intro x hx
    rw [List.mem_singleton.mp hx]
    exact occLE_refl m
  | cons o l ih =>
    rw [List.foldl_cons]
    by_cases h : occLE m o
    · rw [show minStep (some m) o = some m from by simp [minStep, h]]
      obtain ⟨m', he, hmem, hmin⟩ := ih m
      have hmm : occLE m' m := hmin m (List.mem_cons_self m _)
      refine ⟨m', he, ?_, ?_⟩
      · rcases List.mem_cons.mp hmem with hm | hm
        · rw [hm]
          exact List.mem_cons_self m _
        · exact List.mem_cons_of_mem _ (List.mem_cons_of_mem _ hm)
      · refine List.forall_mem_cons.mpr ⟨hmm, List.forall_mem_cons.mpr ⟨occLE_trans hmm h, ?_⟩⟩
        intro x hx
        exact hmin x (List.mem_cons_of_mem _ hx)
    · have h' : occLE o m := (occLE_total m o).resolve_left h
      rw [show minStep (some m) o = some o from by simp [minStep, h]]
      obtain ⟨m', he, hmem, hmin⟩ := ih o
      have hmo : occLE m' o := hmin o (List.mem_cons_self o _)
      refine ⟨m', he, ?_, ?_⟩
      · rcases List.mem_cons.mp hmem with hm | hm
        · rw [hm]
          exact List.mem_cons_of_mem _ (List.mem_cons_self o _)
        · exact List.mem_cons_of_mem _ (List.mem_cons_of_mem _ hm)
      · refine List.forall_mem_cons.mpr
          ⟨occLE_trans hmo h', List.forall_mem_cons.mpr ⟨hmo, ?_⟩⟩
        intro x hx
        exact hmin x (List.mem_cons_of_mem _ hx)

/-- C5: `next_occurrence(now)` equals `list_occurrences(now, +∞)` bounded
to its single earliest element — it returns none exactly when that
expansion is empty, and otherwise an element of the expansion that is
earliest in the deterministic result order. -/
theorem next_occurrence_earliest (s : Store) (now : Nat) (fuel : Nat) :
    (nextOccurrence s now fuel = none ↔ listOccurrences s now none fuel = []) ∧
    ∀ o, nextOccurrence s now fuel = some o →
      o ∈ listOccurrences s now none fuel ∧
        ∀ o' ∈ listOccurrences s now none fuel, occLE o o' := by
  cases hl : listOccurrences s now none fuel with
  | nil =>
    constructor
    · constructor
      · intro _
        rfl
      · intro _
        unfold nextOccurrence
        rw [hl]
        rfl
    · intro o ho
      unfold nextOccurrence at ho
      rw [hl] at ho
      simp [List.foldl_nil] at ho
  | cons a l =>
    have hfold : nextOccurrence s now fuel = (a :: l).foldl minStep none := by
      unfold nextOccurrence
      rw [hl]
    obtain ⟨m', he, hmem, hmin⟩ := foldl_minStep_spec l a
    have he' : nextOccurrence s now fuel = some m' := by
      rw [hfold]
      exact he
    constructor
    · constructor
      · intro h
        rw [he'] at h
        cases h
      · intro h
        exact absurd h (List.cons_ne_nil a l)
    · intro o ho
      rw [he'] at ho
      injection ho with ho
      subst ho
      exact ⟨hmem, hmin⟩


/-! ## Move operation lemmas -/

/-- `lastIdxOf` misses a list free of the uid. -/
theorem lastIdxOf_eq_none_of (l : List IcsTodo) (u : String)
    (h : ∀ t ∈ l, t.uid ≠ u) : lastIdxOf l u = none := by
  induction l with
  | nil => rfl
  | cons a l ih =>
    unfold lastIdxOf
    rw [ih fun t ht => h t (List.mem_cons_of_mem a ht)]
    rw [if_neg (h a (List.mem_cons_self a l))]

/-- `lastIdxOf` finds the last element carrying the uid. -/
theorem lastIdxOf_append_cons (A B : List IcsTodo) (c : IcsTodo) (u : String)
    (hc : c.uid = u) (hB : ∀ t ∈ B, t.uid ≠ u) :
    lastIdxOf (A ++ c :: B) u = some A.length := by
  induction A with
  | nil =>
    rw [List.nil_append]
    unfold lastIdxOf
    rw [lastIdxOf_eq_none_of B u hB, if_pos hc]
    rfl
  | cons a A ih =>
    show lastIdxOf (a :: (A ++ c :: B)) u = some (A.length + 1)
    unfold lastIdxOf
    rw [ih]

/-- Reading the element at the junction of a decomposition. -/
theorem listGetDMid (A B : List IcsTodo) (c d : IcsTodo) :
    (A ++ c :: B).getD A.length d = c := by
  induction A with
  | nil => rfl
  | cons a A ih => simpa using ih

/-- Erasing the element at the junction of a decomposition. -/
theorem listEraseMid (A B : List IcsTodo) (c : IcsTodo) :
    (A ++ c :: B).eraseIdx A.length = A ++ B := by
  induction A with
  | nil => rfl
  | cons a A ih => simpa using ih

/-- Inserting at the junction of a decomposition. -/
theorem listInsertMid (A B : List IcsTodo) (c : IcsTodo) :
    (A ++ B).insertIdx A.length c = A ++ c :: B := by
  induction A with
  | nil => rfl
  | cons a A ih => simpa using ih

/-- In a uid-nodup list, the lists on either side of an element do not
repeat its uid. -/
theorem nodup_split_free (A B : List IcsTodo) (c : IcsTodo)
    (hnd : ((A ++ c :: B).map IcsTodo.uid).Nodup) :
    (∀ t ∈ A, t.uid ≠ c.uid) ∧ (∀ t ∈ B, t.uid ≠ c.uid) := by
  rw [List.map_append, List.map_cons] at hnd
  rcases List.nodup_append.mp hnd with ⟨_, hcons, hdisj⟩
  have hcB : c.uid ∉ B.map IcsTodo.uid := (List.nodup_cons.mp hcons).1
  constructor
  · intro t ht he
    exact hdisj (List.mem_map_of_mem IcsTodo.uid ht) (he ▸ List.mem_cons_self c.uid _)
  · intro t ht he
    exact hcB (he ▸ List.mem_map_of_mem IcsTodo.uid ht)

/-- A uid-free list passes the remove-uid filter untouched. -/
theorem filter_ne_uid_eq_self (l : List IcsTodo) (u : String)
    (h : ∀ t ∈ l, t.uid ≠ u) :
    l.filter (fun t => !(t.uid == u)) = l := by
  apply List.filter_eq_self.mpr
  intro t ht
  simp [h t ht]


/-- Evaluating a front move (`previous_uid` absent) at a found source
index. -/
theorem moveTodoItem_eval_front (todos : List IcsTodo) (uid : String) (L : Nat)
    (hsrc : lastIdxOf todos uid = some L) :
    moveTodoItem todos uid none =
      Except.ok ((todos.eraseIdx L).insertIdx 0 (todos.getD L default)) := by
  unfold moveTodoItem
  rw [if_neg (by simp), hsrc]

/-- Evaluating a move behind a present `previous_uid` at found indices. -/
theorem moveTodoItem_eval_some (todos : List IcsTodo) (uid pu : String) (L P : Nat)
    (h1 : ¬ ((some uid : Option String) = some pu))
    (hpne : pu ≠ "")
    (hsrc : lastIdxOf todos uid = some L)
    (hpidx : lastIdxOf todos pu = some P) :
    moveTodoItem todos uid (some pu) =
      Except.ok ((todos.eraseIdx L).insertIdx (if P + 1 > L then P else P + 1)
        (todos.getD L default)) := by
  unfold moveTodoItem
  rw [if_neg h1, hsrc]
  show (match (if pu = "" then none else some pu : Option String) with
    | none => Except.ok (List.insertIdx 0 (todos.getD L default) (todos.eraseIdx L))
    | some p =>
      match lastIdxOf todos p with
      | none => Except.error MoveError.notFound
      | some pIdx =>
        Except.ok (List.insertIdx (if pIdx + 1 > L then pIdx else pIdx + 1)
          (todos.getD L default) (todos.eraseIdx L))) = _
  rw [if_neg hpne]
  show (match lastIdxOf todos pu with
    | none => Except.error MoveError.notFound
    | some pIdx =>
      Except.ok (List.insertIdx (if pIdx + 1 > L then pIdx else pIdx + 1)
        (todos.getD L default) (todos.eraseIdx L))) = _
  rw [hpidx]

/-- A move whose `uid` lookup fails errors out (unless the no-op guard
fires first). -/
theorem moveTodoItem_eval_nouid (todos : List IcsTodo) (uid : String)
    (prev : Option String) (hne : ¬ ((some uid : Option String) = prev))
    (hsrc : lastIdxOf todos uid = none) :
    moveTodoItem todos uid prev = Except.error MoveError.notFound := by
  unfold moveTodoItem
  rw [if_neg hne, hsrc]

/-- A move whose non-empty `previous_uid` lookup fails errors out. -/
theorem moveTodoItem_eval_noprev (todos : List IcsTodo) (uid pu : String) (L : Nat)
    (h1 : ¬ ((some uid : Option String) = some pu))
    (hpne : pu ≠ "")
    (hsrc : lastIdxOf todos uid = some L)
    (hpidx : lastIdxOf todos pu = none) :
    moveTodoItem todos uid (some pu) = Except.error MoveError.notFound := by
  unfold moveTodoItem
  rw [if_neg h1, hsrc]
  show (match (if pu = "" then none else some pu : Option String) with
    | none => Except.ok (List.insertIdx 0 (todos.getD L default) (todos.eraseIdx L))
    | some p =>
      match lastIdxOf todos p with
      | none => Except.error MoveError.notFound
      | some pIdx =>
        Except.ok (List.insertIdx (if pIdx + 1 > L then pIdx else pIdx + 1)
          (todos.getD L default) (todos.eraseIdx L))) = _
  rw [if_neg hpne]
  show (match lastIdxOf todos pu with
    | none => Except.error MoveError.notFound
    | some pIdx =>
      Except.ok (List.insertIdx (if pIdx + 1 > L then pIdx else pIdx + 1)
        (todos.getD L default) (todos.eraseIdx L))) = _
  rw [hpidx]

/-- A successful move when the anchor `p` sits before the moved item. -/
theorem moveTodoItem_before (uid : String) (x p : IcsTodo) (X₁ X₂ Y : List IcsTodo)
    (hxu : x.uid = uid) (hpu : p.uid ≠ uid) (hpne : p.uid ≠ "")
    (hnd : (((X₁ ++ p :: X₂) ++ x :: Y).map IcsTodo.uid).Nodup) :
    moveTodoItem ((X₁ ++ p :: X₂) ++ x :: Y) uid (some p.uid) =
      Except.ok (X₁ ++ p :: x :: (X₂ ++ Y)) := by
  have hfree := nodup_split_free (X₁ ++ p :: X₂) Y x hnd
  have hYfree : ∀ t ∈ Y, t.uid ≠ uid := fun t ht => hxu ▸ hfree.2 t ht
  have hsrc : lastIdxOf ((X₁ ++ p :: X₂) ++ x :: Y) uid = some (X₁ ++ p :: X₂).length :=
    lastIdxOf_append_cons _ _ _ _ hxu hYfree
  have hassoc : (X₁ ++ p :: X₂) ++ x :: Y = X₁ ++ p :: (X₂ ++ x :: Y) := by
    simp [List.append_assoc]
  have hnd' : ((X₁ ++ p :: (X₂ ++ x :: Y)).map IcsTodo.uid).Nodup := by
    rw [← hassoc]
    exact hnd
  have hfree' := nodup_split_free X₁ (X₂ ++ x :: Y) p hnd'
  have hpidx : lastIdxOf ((X₁ ++ p :: X₂) ++ x :: Y) p.uid = some X₁.length := by
    rw [hassoc]
    exact lastIdxOf_append_cons X₁ (X₂ ++ x :: Y) p p.uid rfl hfree'.2
  have h1 : ¬ ((some uid : Option String) = some p.uid) := by
    intro hcon
    injection hcon with hcon
    exact hpu hcon.symm
  rw [moveTodoItem_eval_some _ _ _ _ _ h1 hpne hsrc hpidx]
  rw [if_neg (by simp [List.length_append]), listGetDMid, listEraseMid]
  have hsplit : (X₁ ++ p :: X₂) ++ Y = (X₁ ++ [p]) ++ (X₂ ++ Y) := by
    simp [List.append_assoc]
  have hlen : X₁.length + 1 = (X₁ ++ [p]).length := by
    simp
  rw [hsplit, hlen, listInsertMid]
  simp [List.append_assoc]

/-- A successful move when the anchor `p` sits after the moved item. -/
theorem moveTodoItem_after (uid : String) (x p : IcsTodo) (X Y₁ Y₂ : List IcsTodo)
    (hxu : x.uid = uid) (hpu : p.uid ≠ uid) (hpne : p.uid ≠ "")
    (hnd : ((X ++ x :: (Y₁ ++ p :: Y₂)).map IcsTodo.uid).Nodup) :
    moveTodoItem (X ++ x :: (Y₁ ++ p :: Y₂)) uid (some p.uid) =
      Except.ok ((X ++ Y₁) ++ p :: x :: Y₂) := by
  have hfree := nodup_split_free X (Y₁ ++ p :: Y₂) x hnd
  have hYfree : ∀ t ∈ Y₁ ++ p :: Y₂, t.uid ≠ uid := fun t ht => hxu ▸ hfree.2 t ht
  have hsrc : lastIdxOf (X ++ x :: (Y₁ ++ p :: Y₂)) uid = some X.length :=
    lastIdxOf_append_cons _ _ _ _ hxu hYfree
  have hassoc : X ++ x :: (Y₁ ++ p :: Y₂) = (X ++ x :: Y₁) ++ p :: Y₂ := by
    simp [List.append_assoc]
  have hnd' : (((X ++ x :: Y₁) ++ p :: Y₂).map IcsTodo.uid).Nodup := by
    rw [← hassoc]
    exact hnd
  have hfree' := nodup_split_free (X ++ x :: Y₁) Y₂ p hnd'
  have hpidx : lastIdxOf (X ++ x :: (Y₁ ++ p :: Y₂)) p.uid = some (X ++ x :: Y₁).length := by
    rw [hassoc]
    exact lastIdxOf_append_cons (X ++ x :: Y₁) Y₂ p p.uid rfl hfree'.2
  have h1 : ¬ ((some uid : Option String) = some p.uid) := by
    intro hcon
    injection hcon with hcon
    exact hpu hcon.symm
  rw [moveTodoItem_eval_some _ _ _ _ _ h1 hpne hsrc hpidx]
  rw [if_pos (by simp [List.length_append]; omega), listGetDMid, listEraseMid]
  have hsplit : X ++ (Y₁ ++ p :: Y₂) = ((X ++ Y₁) ++ [p]) ++ Y₂ := by
    simp [List.append_assoc]
  have hlen : (X ++ x :: Y₁).length = ((X ++ Y₁) ++ [p]).length := by
    simp [List.length_append]
  rw [hsplit, hlen, listInsertMid]
  simp [List.append_assoc]

/-- C6: `move(uid, after_uid)` re-orders the item `uid` to sit directly
after `after_uid` (or at the front when `after_uid` is absent), keeping
the relative order of all other items; `uid = after_uid` is a no-op. -/
theorem move_reorders (todos : List IcsTodo) (uid : String) (x p : IcsTodo)
    (hnd : (todos.map IcsTodo.uid).Nodup)
    (hx : x ∈ todos) (hxu : x.uid = uid)
    (hp : p ∈ todos) (hpu : p.uid ≠ uid) (hpne : p.uid ≠ "") :
    moveTodoItem todos uid (some uid) = Except.ok todos ∧
    moveTodoItem todos uid none = Except.ok (x :: todos.filter (fun t => !(t.uid == uid))) ∧
    ∃ A B, todos.filter (fun t => !(t.uid == uid)) = A ++ p :: B ∧
      moveTodoItem todos uid (some p.uid) = Except.ok (A ++ p :: x :: B) := by
  obtain ⟨X, Y, rfl⟩ := List.append_of_mem hx
  have hfree := nodup_split_free X Y x hnd
  have hXfree : ∀ t ∈ X, t.uid ≠ uid := fun t ht => hxu ▸ hfree.1 t ht
  have hYfree : ∀ t ∈ Y, t.uid ≠ uid := fun t ht => hxu ▸ hfree.2 t ht
  have hsrc : lastIdxOf (X ++ x :: Y) uid = some X.length :=
    lastIdxOf_append_cons X Y x uid hxu hYfree
  refine ⟨?_, ?_, ?_⟩
  · unfold moveTodoItem
    rw [if_pos rfl]
  · rw [moveTodoItem_eval_front _ _ _ hsrc, listGetDMid, listEraseMid]
    have hfil : (X ++ x :: Y).filter (fun t => !(t.uid == uid)) = X ++ Y := by
      rw [List.filter_append, List.filter_cons]
      simp [hxu, filter_ne_uid_eq_self X uid hXfree, filter_ne_uid_eq_self Y uid hYfree]
    rw [hfil]
    rfl
  · have hpx : p ≠ x := by
      intro hcon
      exact hpu (hcon ▸ hxu)
    rcases List.mem_append.mp hp with hpX | hpxy
    · obtain ⟨X₁, X₂, rfl⟩ := List.append_of_mem hpX
      have hfil : ((X₁ ++ p :: X₂) ++ x :: Y).filter (fun t => !(t.uid == uid)) =
          X₁ ++ p :: (X₂ ++ Y) := by
        have hX₁ : ∀ t ∈ X₁, t.uid ≠ uid :=
          fun t ht => hXfree t (List.mem_append.mpr (Or.inl ht))
        have hX₂ : ∀ t ∈ X₂, t.uid ≠ uid :=
          fun t ht => hXfree t (List.mem_append.mpr (Or.inr (List.mem_cons_of_mem p ht)))
        rw [List.filter_append, List.filter_append, List.filter_cons, List.filter_cons]
        simp [hxu, hpu, filter_ne_uid_eq_self X₁ uid hX₁, filter_ne_uid_eq_self X₂ uid hX₂,
          filter_ne_uid_eq_self Y uid hYfree]
      exact ⟨X₁, X₂ ++ Y, hfil, moveTodoItem_before uid x p X₁ X₂ Y hxu hpu hpne hnd⟩
    · have hpY : p ∈ Y := by
        rcases List.mem_cons.mp hpxy with hcon | hY
        · exact absurd hcon hpx
        · exact hY
      obtain ⟨Y₁, Y₂, rfl⟩ := List.append_of_mem hpY
      have hfil : (X ++ x :: (Y₁ ++ p :: Y₂)).filter (fun t => !(t.uid == uid)) =
          (X ++ Y₁) ++ p :: Y₂ := by
        have hY₁ : ∀ t ∈ Y₁, t.uid ≠ uid :=
          fun t ht => hYfree t (List.mem_append.mpr (Or.inl ht))
        have hY₂ : ∀ t ∈ Y₂, t.uid ≠ uid :=
          fun t ht => hYfree t (List.mem_append.mpr (Or.inr (List.mem_cons_of_mem p ht)))
        rw [List.filter_append, List.filter_cons, List.filter_append, List.filter_cons]
        simp [hxu, hpu, filter_ne_uid_eq_self X uid hXfree, filter_ne_uid_eq_self Y₁ uid hY₁,
          filter_ne_uid_eq_self Y₂ uid hY₂, List.append_assoc]
      exact ⟨X ++ Y₁, Y₂, hfil, moveTodoItem_after uid x p X Y₁ Y₂ hxu hpu hpne hnd⟩

/-- Concrete todo `a` for the move witnesses. -/
def todoA : IcsTodo := ⟨"a", none, none, none, none⟩

/-- Concrete todo `b` for the move witnesses. -/
def todoB : IcsTodo := ⟨"b", none, none, none, none⟩

/-- Concrete todo `c` for the move witnesses. -/
def todoC : IcsTodo := ⟨"c", none, none, none, none⟩

/-- Witness for C6 on a three-item list. -/
theorem move_reorders_witness :
    ([todoA, todoB, todoC].map IcsTodo.uid).Nodup ∧
    todoA ∈ [todoA, todoB, todoC] ∧
    todoA.uid = "a" ∧
    todoC ∈ [todoA, todoB, todoC] ∧
    todoC.uid ≠ "a" ∧
    todoC.uid ≠ "" ∧
    (moveTodoItem [todoA, todoB, todoC] "a" (some "a") = Except.ok [todoA, todoB, todoC] ∧
      moveTodoItem [todoA, todoB, todoC] "a" none =
        Except.ok (todoA :: [todoA, todoB, todoC].filter (fun t => !(t.uid == "a"))) ∧
      ∃ A B, [todoA, todoB, todoC].filter (fun t => !(t.uid == "a")) = A ++ todoC :: B ∧
        moveTodoItem [todoA, todoB, todoC] "a" (some todoC.uid) =
          Except.ok (A ++ todoC :: todoA :: B)) :=
  ⟨by decide, by decide, rfl, by decide, by decide, by decide,
    move_reorders [todoA, todoB, todoC] "a" todoA todoC (by decide) (by decide) rfl
      (by decide) (by decide) (by decide)⟩

/-- Counterexample to C7 as stated: with `uid = after_uid` the operation
returns successfully even when that uid resolves to no item, and an empty
`after_uid` is treated as "front" without being looked up, so neither
case raises NotFound. -/
theorem move_not_found_counterexample :
    moveTodoItem [] "x" (some "x") = Except.ok ([] : List IcsTodo) ∧
    moveTodoItem [todoA] "a" (some "") = Except.ok [todoA] :=
  ⟨rfl, rfl⟩

/-- C7 (amended): when `uid` differs from the supplied `after_uid`, a
failed lookup of `uid`, or of a non-empty `after_uid`, makes the move
fail with NotFound; the failure produces no new list, so the sequence is
untouched. -/
theorem move_not_found (todos : List IcsTodo) (uid : String) (prev : Option String)
    (hne : ¬ ((some uid : Option String) = prev)) :
    (lastIdxOf todos uid = none →
      moveTodoItem todos uid prev = Except.error MoveError.notFound) ∧
    (∀ pu, prev = some pu → pu ≠ "" → lastIdxOf todos pu = none →
      moveTodoItem todos uid prev = Except.error MoveError.notFound) := by
  constructor
  · intro hsrc
    exact moveTodoItem_eval_nouid todos uid prev hne hsrc
  · intro pu hprev hpne hpidx
    subst hprev
    cases hL : lastIdxOf todos uid with
    | none => exact moveTodoItem_eval_nouid todos uid _ hne hL
    | some L => exact moveTodoItem_eval_noprev todos uid pu L hne hpne hL hpidx

/-- Witness for the amended C7: a missing uid and a missing non-empty
after-uid both fail with NotFound. -/
theorem move_not_found_witness :
    ¬ ((some "z" : Option String) = some "a") ∧
    lastIdxOf [todoA] "z" = none ∧
    moveTodoItem [todoA] "z" (some "a") = Except.error MoveError.notFound ∧
    ¬ ((some "a" : Option String) = some "q") ∧
    lastIdxOf [todoA] "q" = none ∧
    moveTodoItem [todoA] "a" (some "q") = Except.error MoveError.notFound :=
  ⟨by decide, rfl, (move_not_found [todoA] "z" (some "a") (by decide)).1 rfl,
    by decide, rfl,
    (move_not_found [todoA] "a" (some "q") (by decide)).2 "q" rfl (by decide) rfl⟩
